import Mathlib

/-!
# Verification of the movie-recommender pipeline of `streamlit_app.py`

This file is a shallow embedding, in Lean 4, of the selection/matching logic of
the Streamlit movie recommender:

* the TMDb query builder and the genre post-filter of `search_tmdb_movies`
  (lines 133-185 of `streamlit_app.py`);
* the response parser of `select_movies_with_openai` (lines 39-51);
* the fuzzy title resolver (lines 244-247), which calls Python's
  `difflib.get_close_matches`; the relevant parts of CPython's `difflib`
  (`SequenceMatcher.find_longest_match`, `get_matching_blocks`, `ratio`,
  `quick_ratio`, `real_quick_ratio`, `get_close_matches`) are embedded here
  as well, including the `autojunk` heuristic for sequences of length >= 200.

Python strings are modelled as `List Char` (titles) or `String` (URLs), Python
floats produced by `difflib` ratios as `ℚ` (all ratios are exact small
fractions, e.g. the cutoff `0.8` is `4/5`), JSON records as structures, and
external HTTP responses as explicit inputs (a list of page results).
-/

namespace MovieApp

/-- A TMDb catalog item, holding the fields of the JSON record that the
program reads: `id`, `title`, `genre_ids`, `release_date`.  A missing
`genre_ids` key is modelled by the empty list (the code reads it with
`movie.get("genre_ids", [])`). -/
structure Movie where
  id : ℕ
  title : List Char
  genre_ids : List ℕ
  release_date : List Char
deriving DecidableEq, Repr

/-- The preference-set fields that `search_tmdb_movies(answers)` reads:
`answers['duration']`, `answers['language']`, `answers['genre']`,
`answers['release_year']`. -/
structure Answers where
  duration : String
  language : List String
  genre : List String
  release_year : String
deriving DecidableEq, Repr

/-- The `genre_map` dictionary of `search_tmdb_movies` (lines 134-137). -/
def genreMap : String → Option ℕ
  | "Action" => some 28
  | "Comedy" => some 35
  | "Drama" => some 18
  | "Sci-Fi" => some 878
  | "Romance" => some 10749
  | "Thriller" => some 53
  | "Horror" => some 27
  | "Animation" => some 16
  | "Documentary" => some 99
  | "Fantasy" => some 14
  | _ => none

/-- The `language_map` dictionary (lines 138-140). -/
def languageMap : String → Option String
  | "English" => some "en"
  | "French" => some "fr"
  | "Spanish" => some "es"
  | "Korean" => some "ko"
  | "Italian" => some "it"
  | "Portuguese" => some "pt"
  | _ => none

/-- The `year_range_map` dictionary (lines 141-144); `.get` returns `None`
for keys not present (in particular for `"No preference"`). -/
def yearRangeMap : String → Option (ℕ × ℕ)
  | "Before 1950" => some (1900, 1949)
  | "1950-1980" => some (1950, 1980)
  | "1980-2000" => some (1980, 2000)
  | "2000-2010" => some (2000, 2010)
  | "2010–2020" => some (2010, 2020)
  | "2020-2024" => some (2020, 2024)
  | _ => none

/-- Line 146: `genre_ids = [str(genre_map[g]) for g in answers['genre'] if g in genre_map]`.
The Python list holds the decimal strings of the ids; it is rendered back with
`str` for the URL and parsed back with `int` in the post-filter, so we keep
the numbers and render them with `toString` where the URL is built. -/
def genreIds (a : Answers) : List ℕ :=
  a.genre.filterMap genreMap

/-- Line 147: `language_codes = [language_map[lang] for lang in answers['language']
if lang != "No preference" and lang in language_map]`. -/
def languageCodes (a : Answers) : List String :=
  a.language.filterMap (fun lang => if lang ≠ "No preference" then languageMap lang else none)

/-- Lines 148-149: `selected_range = year_range_map.get(answers['release_year'], None);
min_year, max_year = selected_range if selected_range else (None, None)`. -/
def minYear (a : Answers) : Option ℕ :=
  match yearRangeMap a.release_year with
  | some r => some r.1
  | none => none

/-- See `minYear`. -/
def maxYear (a : Answers) : Option ℕ :=
  match yearRangeMap a.release_year with
  | some r => some r.2
  | none => none

/-- Lines 151-159: the duration label is mapped to an inclusive runtime range;
any other label (the `else` branch) yields the default `(0, 400)`. -/
def withRuntime (a : Answers) : ℕ × ℕ :=
  if a.duration = "Less than 90 minutes" then (0, 89)
  else if a.duration = "Around 90–120 minutes" then (0, 120)
  else if a.duration = "More than 2 hours" then (120, 400)
  else (0, 400)

/-- Line 163: the fixed part of the discover URL, parameterized by the API key
(loaded from secrets in the source) and the page number. -/
def baseUrl (apiKey : String) (page : ℕ) : String :=
  "https://api.themoviedb.org/3/discover/movie?api_key=" ++ apiKey ++
    "&language=en-US&sort_by=popularity.desc&page=" ++ toString page

/-- Lines 164-165: `if genre_ids: url += f"&with_genres={','.join(genre_ids)}"`.
An empty Python list is falsy, so nothing is appended for it. -/
def genreSeg (a : Answers) : String :=
  if genreIds a = [] then ""
  else "&with_genres=" ++ String.intercalate "," ((genreIds a).map toString)

/-- Lines 166-167: `if language_codes: url += f"&with_original_language={language_codes[0]}"`.
Only the head of the list is ever used. -/
def langSeg (a : Answers) : String :=
  match languageCodes a with
  | [] => ""
  | c :: _ => "&with_original_language=" ++ c

/-- Lines 168-169: `if min_year: url += f"&primary_release_date.gte={min_year}-01-01"`.
Python's `if min_year:` is falsy both for `None` and for `0`. -/
def dateGteSeg (a : Answers) : String :=
  match minYear a with
  | some y => if y = 0 then "" else "&primary_release_date.gte=" ++ toString y ++ "-01-01"
  | none => ""

/-- Lines 170-171: `if max_year: url += f"&primary_release_date.lte={max_year}-12-31"`. -/
def dateLteSeg (a : Answers) : String :=
  match maxYear a with
  | some y => if y = 0 then "" else "&primary_release_date.lte=" ++ toString y ++ "-12-31"
  | none => ""

/-- Line 172: `url += f"&with_runtime.gte={with_runtime[0]}&with_runtime.lte={with_runtime[1]}"`,
appended unconditionally. -/
def runtimeSeg (a : Answers) : String :=
  "&with_runtime.gte=" ++ toString (withRuntime a).1 ++
    "&with_runtime.lte=" ++ toString (withRuntime a).2

/-- The full URL built for one page (lines 163-172): the base followed by the
conditional segments, in the order the source appends them. -/
def buildUrl (apiKey : String) (a : Answers) (page : ℕ) : String :=
  baseUrl apiKey page ++ genreSeg a ++ langSeg a ++ dateGteSeg a ++ dateLteSeg a ++ runtimeSeg a

/-- Line 162: `for page in range(1, 6)` — the five queries the function issues. -/
def urlsIssued (apiKey : String) (a : Answers) : List String :=
  (List.range' 1 5).map (buildUrl apiKey a)

/-- Lines 179-182: the local genre post-filter applied to one page of results:
`all(int(gid) in movie.get("genre_ids", []) for gid in map(int, genre_ids))`. -/
def genrePass (a : Answers) (m : Movie) : Bool :=
  (genreIds a).all (fun gid => m.genre_ids.contains gid)

/-- `search_tmdb_movies` (lines 161-185), with the five per-page HTTP responses
(`data.get("results", [])` of each page, a missing key giving `[]`) passed in
explicitly: each page is filtered by `genrePass` and `results.extend(filtered)`
concatenates the filtered pages in order. -/
def search_tmdb_movies (a : Answers) (pages : List (List Movie)) : List Movie :=
  (pages.map (fun data => data.filter (genrePass a))).flatten

/-- Claim-side reading of the "release year" attribute of an item, used only to
STATE the numeric-range property of C2: the first four characters of
`release_date`, when they are digits (the program itself only ever slices
`release_date[:4]` for display). -/
def movieYear (m : Movie) : Option ℕ :=
  let l := m.release_date.take 4
  if l.length = 4 ∧ l.all Char.isDigit then
    some (l.foldl (fun n c => n * 10 + (c.toNat - 48)) 0)
  else none

/-! ## The OpenAI response parser (`select_movies_with_openai`, lines 39-51) -/

/-- ASCII whitespace stripped by Python's bare `str.strip()` (the titles and
model responses handled here are ASCII; the full Unicode whitespace set only
adds further code points that never occur in the claims). -/
def isWs (c : Char) : Bool :=
  c = ' ' ∨ c = '\t' ∨ c = '\n' ∨ c = '\x0b' ∨ c = '\x0c' ∨ c = '\r'

/-- Python `str.strip()`: drop whitespace from both ends. -/
def pyStrip (s : List Char) : List Char :=
  ((s.dropWhile isWs).reverse.dropWhile isWs).reverse

/-- Python `str.strip(chars)`: drop any of the given characters from BOTH ends
of the string (not only the leading end). -/
def stripChars (cs : List Char) (s : List Char) : List Char :=
  ((s.dropWhile (fun c => cs.contains c)).reverse.dropWhile (fun c => cs.contains c)).reverse

/-- The strip set of line 47: `"•-1234567890. "` (bullet, dash, digits,
period, space). -/
def markerChars : List Char :=
  "•-1234567890. ".toList

/-- Lines 46-48 of `select_movies_with_openai`: strip the raw content, split on
newlines, drop lines blank after a whitespace strip, strip the marker
characters from both ends of each remaining line (then a final `strip()`),
and keep at most five entries.  `"".split("\n")` is `[""]`, which the blank
filter drops. -/
def parseSelected (content : List Char) : List (List Char) :=
  let raw := (pyStrip content).splitOn '\n'
  (((raw.filter (fun m => pyStrip m ≠ [])).map
      (fun m => pyStrip (stripChars markerChars m))).take 5)

/-- `select_movies_with_openai`, abstracted over the outcome of the chat
completion call: `none` models the exception path (lines 49-51: the exception
is caught, an error is shown with `st.error`, and `[]` is returned — no retry,
no fallback), `some content` the successful response text. -/
def select_movies_with_openai (response : Option (List Char)) : List (List Char) :=
  match response with
  | none => []
  | some content => parseSelected content

/-! ## CPython `difflib`, as used by the fuzzy title resolver

Line 246 of the source calls `difflib.get_close_matches(clean_title,
tmdb_titles, n=1, cutoff=0.8)`, which builds a `SequenceMatcher(None, x,
clean_title)` for each candidate `x`.  With `isjunk=None` the junk set
`bjunk` is empty, but the `autojunk` heuristic still applies: when the second
sequence `b` has length >= 200, every character occurring in it more than
`len(b) // 100 + 1` times is dropped from the index `b2j` ("popular"
characters), so the main matching loop skips it; the two non-junk extension
loops of `find_longest_match` then extend the found block over ANY equal
characters (`isbjunk` is always false), and the two junk extension loops
never run. -/

/-- The "popular" character predicate of `SequenceMatcher.__chain_b`
(autojunk): active only when `len(b) >= 200`. -/
def popularP (b : List Char) : Char → Bool :=
  if 200 ≤ b.length then
    fun c => b.length / 100 + 1 < (b.filter (fun x => x = c)).length
  else fun _ => false

/-- Length of the longest common prefix of two strings: the length of the
matching run starting at a given pair of positions. -/
def runLen : List Char → List Char → ℕ
  | x :: xs, y :: ys => if x = y then runLen xs ys + 1 else 0
  | _, _ => 0

/-- Like `runLen`, but a run may only use `b`-characters that are not junk
(dropped from `b2j`): this is the run length the `j2len` chains of the main
loop of `find_longest_match` can build. -/
def runLenP (pop : Char → Bool) : List Char → List Char → ℕ
  | x :: xs, y :: ys => if x = y ∧ pop y = false then runLenP pop xs ys + 1 else 0
  | _, _ => 0

/-- The run length at start positions `(i, j)` of `a` and `b`. -/
def runAtP (pop : Char → Bool) (a b : List Char) (i j : ℕ) : ℕ :=
  runLenP pop (a.drop i) (b.drop j)

/-- All start-position pairs `(i, j)`, `i < n`, `j < m`, in the scan order of
the main loop of `find_longest_match` (outer loop on `i`, inner on `j`). -/
def pairsLex (n m : ℕ) : List (ℕ × ℕ) :=
  ((List.range n).map (fun i => (List.range m).map (fun j => (i, j)))).flatten

/-- One step of the main loop: a strictly longer matching run replaces the
current best block (`if k > bestsize: besti, bestj, bestsize = i-k+1, j-k+1, k`,
re-indexed at the start of the run). -/
def bmStep (pop : Char → Bool) (a b : List Char) (best : ℕ × ℕ × ℕ) (p : ℕ × ℕ) : ℕ × ℕ × ℕ :=
  if best.2.2 < runAtP pop a b p.1 p.2 then (p.1, p.2, runAtP pop a b p.1 p.2) else best

/-- The main dynamic-programming loop of `find_longest_match` on full ranges,
reformulated over run start positions: it returns the first (in scan order)
maximal matching block `(besti, bestj, bestsize)`, starting from
`(alo, blo, 0) = (0, 0, 0)`.  The `j2len` chains of the source compute, at
each end position, the length of the backward matching run of non-junk
`b`-characters; scanning ends in lexicographic order and keeping the first
strict maximum is the same as scanning starts in lexicographic order and
keeping the first strict maximum of the forward run length `runAtP`. -/
def bestMatchP (pop : Char → Bool) (a b : List Char) : ℕ × ℕ × ℕ :=
  (pairsLex a.length b.length).foldl (bmStep pop a b) (0, 0, 0)

/-- First non-junk extension loop of `find_longest_match`: with `bjunk` empty,
`while besti > alo and bestj > blo and not isbjunk(b[bestj-1]) and
a[besti-1] == b[bestj-1]: besti, bestj, bestsize = besti-1, bestj-1, bestsize+1`.
The indices are in range whenever the loop body runs (they are positions of
the two strings), so the `getD` defaults are never consulted. -/
def extendLeft (a b : List Char) : ℕ → ℕ → ℕ → ℕ × ℕ × ℕ
  | 0, j, k => (0, j, k)
  | i + 1, 0, k => (i + 1, 0, k)
  | i + 1, j + 1, k =>
    if a.getD i ' ' = b.getD j ' ' then extendLeft a b i j (k + 1)
    else (i + 1, j + 1, k)

/-- Second non-junk extension loop: `while besti+bestsize < ahi and
bestj+bestsize < bhi and not isbjunk(b[bestj+bestsize]) and
a[besti+bestsize] == b[bestj+bestsize]: bestsize += 1`, written with an
explicit iteration bound to make it structurally recursive: the loop advances
`k` while `i + k < len(a)`, so it runs at most `len(a) - (i + k)` times, and
with the fuel exhausted the guard is false anyway.  `extendRight_eq` below
recovers the loop equation. -/
def extendRightAux (a b : List Char) (i j : ℕ) : ℕ → ℕ → ℕ
  | 0, k => k
  | fuel + 1, k =>
    if i + k < a.length ∧ j + k < b.length ∧ a.getD (i + k) ' ' = b.getD (j + k) ' ' then
      extendRightAux a b i j fuel (k + 1)
    else k

/-- See `extendRightAux`. -/
def extendRight (a b : List Char) (i j k : ℕ) : ℕ :=
  extendRightAux a b i j (a.length - (i + k)) k

/-- `find_longest_match` over full ranges: the main loop, then the left and
right non-junk extensions.  The two junk extension loops of the source never
iterate because `bjunk` is empty when `isjunk` is `None`. -/
def flmP (pop : Char → Bool) (a b : List Char) : ℕ × ℕ × ℕ :=
  let m := bestMatchP pop a b
  let l := extendLeft a b m.1 m.2.1 m.2.2
  (l.1, l.2.1, extendRight a b l.1 l.2.1 l.2.2)

/-- The recursion of `get_matching_blocks`, summed: the total number of matched
characters `M = sum of the block sizes`.  The queue recursion of the source
splits the ranges strictly around each nonempty block; since the junk sets are
character-based, matching on subranges equals matching on the corresponding
slices.  The fuel argument only bounds the recursion depth; `matchTotalP_eq`
below proves the recurrence always terminates within `a.length + 1` steps. -/
def matchTotalAux (pop : Char → Bool) : ℕ → List Char → List Char → ℕ
  | 0, _, _ => 0
  | fuel + 1, a, b =>
    let t := flmP pop a b
    if t.2.2 = 0 then 0
    else
      matchTotalAux pop fuel (a.take t.1) (b.take t.2.1) + t.2.2 +
        matchTotalAux pop fuel (a.drop (t.1 + t.2.2)) (b.drop (t.2.1 + t.2.2))

/-- Total matched characters between `a` and `b` (with `b`'s popularity junk). -/
def matchTotalP (pop : Char → Bool) (a b : List Char) : ℕ :=
  matchTotalAux pop (a.length + 1) a b

/-- `difflib._calculate_ratio(matches, length)`: `2.0 * matches / length`,
and `1.0` when `length` is zero.  The quotient is written with `mkRat`, which
equals `2 * (m : ℚ) / (t : ℚ)` (see `calcRatio_eq_div`) but also reduces
inside the kernel, so that concrete instances can be settled by `decide`. -/
def calcRatio (m t : ℕ) : ℚ :=
  if t = 0 then 1 else mkRat (2 * m) t

/-- `SequenceMatcher(None, a, b).ratio()`; the junk/popular set is computed
from the second sequence `b`. -/
def simRatio (a b : List Char) : ℚ :=
  calcRatio (matchTotalP (popularP b) a b) (a.length + b.length)

/-- The availability-decrement loop of `quick_ratio`, which computes the size
of the multiset intersection of the two strings: each character of `a` is
matched against a still-unused occurrence in `b` when one remains. -/
def msInter : List Char → List Char → ℕ
  | [], _ => 0
  | x :: xs, b => if x ∈ b then msInter xs (b.erase x) + 1 else msInter xs b

/-- `SequenceMatcher.quick_ratio()`: an upper bound on `ratio()`. -/
def quickRat (a b : List Char) : ℚ :=
  calcRatio (msInter a b) (a.length + b.length)

/-- `SequenceMatcher.real_quick_ratio()`: `2 * min(la, lb) / (la + lb)`. -/
def realQuickRat (a b : List Char) : ℚ :=
  calcRatio (min a.length b.length) (a.length + b.length)

/-- The acceptance test of `get_close_matches` for one candidate `x` against
the word: `real_quick_ratio() >= cutoff and quick_ratio() >= cutoff and
ratio() >= cutoff` (note: `>=`, not a strict inequality). -/
def closeCond (word x : List Char) (cutoff : ℚ) : Bool :=
  decide (cutoff ≤ realQuickRat x word ∧ cutoff ≤ quickRat x word ∧ cutoff ≤ simRatio x word)

/-- Lexicographic (code-point) comparison of Python strings, used by the tuple
comparison inside `heapq.nlargest` on `(ratio, title)` pairs. -/
def strLtB : List Char → List Char → Bool
  | [], [] => false
  | [], _ :: _ => true
  | _ :: _, [] => false
  | x :: xs, y :: ys => if x < y then true else if y < x then false else strLtB xs ys

/-- Python tuple comparison `(r1, s1) > (r2, s2)` on `(ratio, string)` pairs. -/
def tupleGtB (r1 : ℚ) (s1 : List Char) (r2 : ℚ) (s2 : List Char) : Bool :=
  if r2 < r1 then true else if r1 = r2 then strLtB s2 s1 else false

/-- `difflib.get_close_matches(word, possibilities, n=1, cutoff)`: filter the
candidates by `closeCond` (in order), then return the largest surviving
`(ratio, candidate)` pair — `heapq.nlargest(1, result)` returns the first
maximal element of the list, so ties keep the earlier candidate only when the
tuples are equal; otherwise the larger `(ratio, string)` tuple wins. -/
def getCloseMatch (word : List Char) (possibilities : List (List Char)) (cutoff : ℚ) :
    Option (List Char) :=
  match possibilities.filter (fun x => closeCond word x cutoff) with
  | [] => none
  | c :: cs =>
    some (cs.foldl
      (fun best x => if tupleGtB (simRatio x word) x (simRatio best word) best then x else best)
      c)

/-! ## The fuzzy title resolver (lines 244-247) -/

/-- `clean_title = re.sub(r"\s*\(\d{4}\)$", "", title).strip()`.  The regex
matches (at the end of the string) a maximal run of whitespace followed by a
parenthesized four-digit year; removing the match and then stripping equals
dropping the six-character `(dddd)` suffix, dropping the whitespace run before
it, and stripping — `pyStrip` already removes trailing whitespace, so the
explicit removal of the run is subsumed by it.  Without such a suffix the
substitution is the identity and only `strip()` acts. -/
def hasYearSuffix (t : List Char) : Bool :=
  match t.reverse with
  | ')' :: d4 :: d3 :: d2 :: d1 :: '(' :: _ =>
    d1.isDigit ∧ d2.isDigit ∧ d3.isDigit ∧ d4.isDigit
  | _ => false

/-- See `hasYearSuffix`. -/
def cleanTitle (t : List Char) : List Char :=
  if hasYearSuffix t then pyStrip (t.take (t.length - 6)) else pyStrip t

/-- Lines 244-247 for a single selected title: clean it, fuzzy-match it
against the pool titles with the given cutoff, and return the first pool
entry whose title equals the match
(`next((m for m in tmdb_results if m['title'] == match[0]), None)`). -/
def resolveTitleWith (cutoff : ℚ) (pool : List Movie) (title : List Char) : Option Movie :=
  match getCloseMatch (cleanTitle title) (pool.map Movie.title) cutoff with
  | none => none
  | some best => pool.find? (fun m => m.title == best)

/-- The call site's cutoff `0.8`, i.e. `4/5` (see `cutoff08_eq`). -/
def cutoff08 : ℚ :=
  mkRat 4 5

/-- The resolver as the source instantiates it: `cutoff=0.8`. -/
def resolveTitle (pool : List Movie) (title : List Char) : Option Movie :=
  resolveTitleWith cutoff08 pool title

/-- Invariant carried by every matching block `(i, j, k)` produced inside
`find_longest_match`: the two segments of length `k` starting at `i` in `a`
and at `j` in `b` are equal (they form a matching run), and the positions are
within the two strings. -/
def matchInv (a b : List Char) (t : ℕ × ℕ × ℕ) : Prop :=
  t.2.2 ≤ runLen (a.drop t.1) (b.drop t.2.1) ∧ t.1 ≤ a.length ∧ t.2.1 ≤ b.length

/-! ## Statement-side helpers and concrete inputs used by the claims -/

/-- Shorthand for string literals as character lists. -/
def toL (s : String) : List Char :=
  s.toList

/-- Substring test on character lists (used only to state properties of the
built URLs). -/
def listContainsB (pat l : List Char) : Bool :=
  (List.range (l.length + 1)).any (fun i => pat.isPrefixOf (l.drop i))

/-- Substring test on strings. -/
def strContainsB (s pat : String) : Bool :=
  listContainsB pat.toList s.toList

/-- A preference set with one recognized genre, one language, a year range and
a recognized duration. -/
def aW1 : Answers :=
  ⟨"Around 90–120 minutes", ["English"], ["Action"], "2010–2020"⟩

/-- An item carrying the requested genre 28 (plus 12). -/
def mAct : Movie :=
  ⟨1, toL "A", [28, 12], toL "2015-06-01"⟩

/-- An item missing the requested genre 28. -/
def mNoAct : Movie :=
  ⟨2, toL "B", [12], toL "2015-06-01"⟩

/-- An item whose release year 1999 lies outside the declared range 2010-2020
but which carries the requested genre. -/
def mOld : Movie :=
  ⟨99, toL "Old", [28], toL "1999-01-01"⟩

/-- An item returned identically on two different pages. -/
def mDup : Movie :=
  ⟨7, toL "Dup", [28], toL "2015-01-01"⟩

/-- A preference set with two genres and two languages. -/
def aC6 : Answers :=
  ⟨"Less than 90 minutes", ["English", "French"], ["Action", "Comedy"], "No preference"⟩

/-- A preference set whose duration label is not one of the three recognized
labels. -/
def aC7 : Answers :=
  ⟨"whenever", ["English"], ["Action"], "No preference"⟩

/-- A preference set where every preference except the genre is unrecognized
or "no preference". -/
def aC7b : Answers :=
  ⟨"whenever", ["No preference", "Klingon"], ["Action"], "No preference"⟩

/-- A preference set whose only genre name is absent from `genre_map`. -/
def aC10 : Answers :=
  ⟨"x", [], ["Western"], "y"⟩

/-- A one-movie pool whose title has similarity exactly `4/5` with the query
`"abcd"`. -/
def mAbc : Movie :=
  ⟨11, toL "abcdef", [], []⟩

/-- The pool of the spec's fuzzy-matching example. -/
def incMovie : Movie :=
  ⟨27205, toL "Inception", [28, 878, 12], toL "2010-07-15"⟩

/-- The near-duplicate title of the spec's fuzzy-matching example. -/
def incOther : Movie :=
  ⟨27206, toL "Inception: Cobol Job", [28], toL "2010-01-01"⟩

/-- See `incMovie` and `incOther`. -/
def incPool : List Movie :=
  [incMovie, incOther]

/-! # Theorems -/

/-- C1: for every preference set with a non-empty genre selection, every movie
in the list returned by `search_tmdb_movies` contains all of the requested
genre ids (the ids of the recognized selected genre names) in its `genre_ids`
tag set — AND semantics, regardless of what the provider pages contained. -/
theorem C1_genre_and_filter (a : Answers) (pages : List (List Movie))
    (_hne : a.genre ≠ []) (m : Movie) (hm : m ∈ search_tmdb_movies a pages)
    (g : String) (hg : g ∈ a.genre) (gid : ℕ) (hgid : genreMap g = some gid) :
    gid ∈ m.genre_ids := by
  obtain ⟨l, hl, hml⟩ := List.mem_flatten.1 hm
  obtain ⟨p, _, rfl⟩ := List.mem_map.1 hl
  have hpass : genrePass a m = true := (List.mem_filter.1 hml).2
  have hmem : gid ∈ genreIds a := List.mem_filterMap.2 ⟨g, hg, hgid⟩
  have := List.all_eq_true.1 hpass gid hmem
  simpa using this

/-- Witness for C1 at a concrete preference set and provider response. -/
theorem C1_witness : 28 ∈ mAct.genre_ids :=
  C1_genre_and_filter aW1 [[mAct, mNoAct]] (by decide) mAct (by decide)
    "Action" (by decide) 28 (by decide)

/-- C2 counterexample: with the declared release-year range 2010-2020, an item
whose year attribute is 1999 (outside the range) is nevertheless retained by
the local filter of `search_tmdb_movies`, so the local post-filter does not
enforce the declared numeric ranges. -/
theorem C2_counterexample :
    mOld ∈ search_tmdb_movies aW1 [[mOld]] ∧
      yearRangeMap aW1.release_year = some (2010, 2020) ∧
      movieYear mOld = some 1999 ∧ ¬(2010 ≤ 1999 ∧ 1999 ≤ 2020) := by
  decide

/-- C2 amended: the only local post-filter is the genre AND-filter — an item
is retained iff some page returned it and it passes `genrePass`; its year and
runtime attributes play no role locally (the numeric ranges are only sent to
the provider inside the query URL). -/
theorem C2_amended_genre_only_post_filter (a : Answers) (pages : List (List Movie)) (m : Movie) :
    m ∈ search_tmdb_movies a pages ↔ ∃ p ∈ pages, m ∈ p ∧ genrePass a m = true := by
  constructor
  · intro hm
    obtain ⟨l, hl, hml⟩ := List.mem_flatten.1 hm
    obtain ⟨p, hp, rfl⟩ := List.mem_map.1 hl
    exact ⟨p, hp, (List.mem_filter.1 hml).1, (List.mem_filter.1 hml).2⟩
  · rintro ⟨p, hp, hmp, hpass⟩
    exact List.mem_flatten.2 ⟨p.filter (genrePass a),
      List.mem_map.2 ⟨p, hp, rfl⟩, List.mem_filter.2 ⟨hmp, hpass⟩⟩

/-- Witness for the amended C2. -/
theorem C2_witness : mOld ∈ search_tmdb_movies aW1 [[mOld]] :=
  (C2_amended_genre_only_post_filter aW1 [[mOld]] mOld).2 ⟨[mOld], by decide, by decide, by decide⟩

/-- C5 counterexample: a provider response repeating the same item (same id)
on two pages yields an output with two entries carrying the same identifier —
the union over the page queries is NOT deduplicated by id. -/
theorem C5_counterexample :
    search_tmdb_movies aW1 [[mDup], [mDup]] = [mDup, mDup] ∧
      ¬((search_tmdb_movies aW1 [[mDup], [mDup]]).map Movie.id).Nodup := by
  decide

/-- C5 amended: the candidate pool is the genre-filtered concatenation of the
page results, with no deduplication step, so multiplicities of ids are
preserved. -/
theorem C5_amended_no_dedup (a : Answers) (pages : List (List Movie)) :
    search_tmdb_movies a pages = pages.flatten.filter (genrePass a) := by
  induction pages with
  | nil => rfl
  | cons p ps ih =>
    simp only [search_tmdb_movies, List.map_cons, List.flatten_cons, List.filter_append] at *
    rw [ih]

/-- Witness for the amended C5. -/
theorem C5_witness :
    search_tmdb_movies aW1 [[mDup], [mDup]] =
      ([[mDup], [mDup]] : List (List Movie)).flatten.filter (genrePass aW1) :=
  C5_amended_no_dedup aW1 [[mDup], [mDup]]

set_option maxRecDepth 8192 in
/-- C6 counterexample: with two selected genres and two selected languages,
every one of the five issued queries carries the comma-joined parameter
`with_genres=28,35` (a single intersecting query, not one query per genre) and
none of them mentions the second language code `fr` (the value is dropped);
the number of issued queries is five (one per page), not one per subject. -/
theorem C6_counterexample :
    (∀ u ∈ urlsIssued "KEY" aC6, strContainsB u "&with_genres=28,35&" = true) ∧
      (∀ u ∈ urlsIssued "KEY" aC6, strContainsB u "fr" = false) ∧
      (urlsIssued "KEY" aC6).length = 5 ∧ aC6.genre.length = 2 ∧ aC6.language.length = 2 := by
  decide

/-- C6 amended: the builder issues one query per page; whenever at least one
genre is recognized and at least one language is recognized, every built URL
contains the single `with_genres` parameter listing ALL mapped genre ids
comma-joined and the `with_original_language` parameter carrying exactly the
first recognized language code — later codes never enter any URL. -/
theorem C6_amended_single_query_per_page (k : String) (a : Answers) (p : ℕ)
    (h1 : genreIds a ≠ []) (c : String) (cs : List String)
    (h2 : languageCodes a = c :: cs) :
    buildUrl k a p =
      baseUrl k p ++ "&with_genres=" ++ String.intercalate "," ((genreIds a).map toString) ++
        "&with_original_language=" ++ c ++ dateGteSeg a ++ dateLteSeg a ++ runtimeSeg a := by
  simp [buildUrl, genreSeg, langSeg, h1, h2, String.append_assoc]

/-- Witness for the amended C6. -/
theorem C6_witness :
    buildUrl "KEY" aC6 1 =
      baseUrl "KEY" 1 ++ "&with_genres=" ++ String.intercalate "," ((genreIds aC6).map toString) ++
        "&with_original_language=" ++ "en" ++ dateGteSeg aC6 ++ dateLteSeg aC6 ++ runtimeSeg aC6 :=
  C6_amended_single_query_per_page "KEY" aC6 1 (by decide) "en" ["fr"] (by decide)

set_option maxRecDepth 8192 in
/-- C7 counterexample: for a duration label outside the recognized set, the
runtime filter is not omitted — it is defaulted to the range `(0, 400)` and
the built query URL does contain runtime bound parameters. -/
theorem C7_counterexample :
    withRuntime aC7 = (0, 400) ∧
      strContainsB (buildUrl "KEY" aC7 1) "&with_runtime.gte=0&with_runtime.lte=400" = true := by
  decide

/-- C7 amended: unrecognized or "no preference" language and release-year
values contribute no parameter, but the duration is different: an unrecognized
duration label is defaulted to the runtime range `(0, 400)` and runtime bound
parameters are always present in the built URL. -/
theorem C7_amended_omission_except_runtime (a : Answers)
    (hl : ∀ l ∈ a.language, l = "No preference" ∨ languageMap l = none)
    (hy : yearRangeMap a.release_year = none)
    (hd : a.duration ≠ "Less than 90 minutes" ∧ a.duration ≠ "Around 90–120 minutes" ∧
      a.duration ≠ "More than 2 hours") :
    langSeg a = "" ∧ dateGteSeg a = "" ∧ dateLteSeg a = "" ∧ withRuntime a = (0, 400) ∧
      ∀ k p, buildUrl k a p = baseUrl k p ++ genreSeg a ++ runtimeSeg a := by
  have hlc : languageCodes a = [] := by
    rw [languageCodes, List.filterMap_eq_nil_iff]
    intro l hlmem
    rcases hl l hlmem with h | h
    · simp [h]
    · simp [h]
  refine ⟨by simp [langSeg, hlc], by simp [dateGteSeg, minYear, hy],
    by simp [dateLteSeg, maxYear, hy], by simp [withRuntime, hd.1, hd.2.1, hd.2.2], ?_⟩
  intro k p
  simp [buildUrl, langSeg, hlc, dateGteSeg, dateLteSeg, minYear, maxYear, hy]

/-- Witness for the amended C7. -/
theorem C7_witness :
    langSeg aC7b = "" ∧ dateGteSeg aC7b = "" ∧ dateLteSeg aC7b = "" ∧
      withRuntime aC7b = (0, 400) ∧
      buildUrl "KEY" aC7b 1 = baseUrl "KEY" 1 ++ genreSeg aC7b ++ runtimeSeg aC7b := by
  have h := C7_amended_omission_except_runtime aC7b (by decide) (by decide) (by decide)
  exact ⟨h.1, h.2.1, h.2.2.1, h.2.2.2.1, h.2.2.2.2 "KEY" 1⟩

/-- C8 counterexample: `"1. Apollo 13"` parses to `"Apollo"` — the strip set
is applied to BOTH ends of the line, so the characters `" 13"` at the end of
the title are removed, not preserved. -/
theorem C8_counterexample :
    parseSelected (toL "1. Apollo 13") = [toL "Apollo"] ∧ toL "Apollo" ≠ toL "Apollo 13" := by
  decide

/-- C8 amended: the parser returns at most five entries, each obtained from a
line of the stripped response that is non-blank, by stripping the marker
characters (bullets, dashes, digits, periods, spaces) from BOTH ends of the
line (trailing markers are removed too, unlike what the claim states for the
end of a title) followed by a whitespace strip. -/
theorem C8_amended_strip_both_ends (content : List Char) :
    (parseSelected content).length ≤ 5 ∧
      ∀ x ∈ parseSelected content,
        ∃ line ∈ (pyStrip content).splitOn '\n',
          pyStrip line ≠ [] ∧ x = pyStrip (stripChars markerChars line) := by
  constructor
  · simp only [parseSelected]
    exact List.length_take_le 5 _
  · intro x hx
    have hx' := List.mem_of_mem_take hx
    obtain ⟨line, hline, rfl⟩ := List.mem_map.1 hx'
    exact ⟨line, (List.mem_filter.1 hline).1, of_decide_eq_true (List.mem_filter.1 hline).2, rfl⟩

/-- Witness for the amended C8. -/
theorem C8_witness :
    ∃ line ∈ (pyStrip (toL "7. Heat\n8) Big")).splitOn '\n',
      pyStrip line ≠ [] ∧ toL "Heat" = pyStrip (stripChars markerChars line) :=
  (C8_amended_strip_both_ends (toL "7. Heat\n8) Big")).2 (toL "Heat") (by decide)

/-- C9: if the chat-completion call raises (caught, surfaced with `st.error`)
or its text is empty/whitespace, `select_movies_with_openai` returns the empty
list — the caller observes no titles; there is no retry and no fallback path
in the function. -/
theorem C9_empty_on_failure_or_empty :
    select_movies_with_openai none = [] ∧
      ∀ content, pyStrip content = [] → select_movies_with_openai (some content) = [] := by
  refine ⟨rfl, ?_⟩
  intro c hc
  simp only [select_movies_with_openai, parseSelected, hc]
  rfl

/-- Witness for C9. -/
theorem C9_witness :
    select_movies_with_openai none = [] ∧
      select_movies_with_openai (some (toL "  \n ")) = [] :=
  ⟨C9_empty_on_failure_or_empty.1, C9_empty_on_failure_or_empty.2 (toL "  \n ") (by decide)⟩

/-- C10: when no selected genre name is recognized (in particular when the
genre list is empty), the genre post-filter is vacuously true and the returned
pool is exactly the concatenation of the provider page results. -/
theorem C10_vacuous_genre_filter (a : Answers) (pages : List (List Movie))
    (h : ∀ g ∈ a.genre, genreMap g = none) :
    search_tmdb_movies a pages = pages.flatten := by
  have hg : genreIds a = [] := by
    rw [genreIds, List.filterMap_eq_nil_iff]; exact h
  have hpass : ∀ m : Movie, genrePass a m = true := by
    intro m; simp [genrePass, hg]
  have : (fun data : List Movie => data.filter (genrePass a)) = fun data => data :=
    funext fun data => List.filter_eq_self.2 (fun m _ => hpass m)
  rw [search_tmdb_movies, this]
  simp

/-- Witness for C10. -/
theorem C10_witness : search_tmdb_movies aC10 [[mAct], [mOld]] = ([[mAct], [mOld]] : List (List Movie)).flatten :=
  C10_vacuous_genre_filter aC10 [[mAct], [mOld]] (by decide)

/-! ## Facts about the embedded `difflib` -/

theorem runLen_le_left : ∀ xs ys : List Char, runLen xs ys ≤ xs.length := by
  intro xs
  induction xs with
  | nil => intro ys; cases ys <;> simp [runLen]
  | cons x xs ih =>
    intro ys
    cases ys with
    | nil => simp [runLen]
    | cons y ys =>
      by_cases h : x = y
      · simp only [runLen, if_pos h, List.length_cons]
        exact Nat.succ_le_succ (ih ys)
      · simp [runLen, h]

theorem runLen_le_right : ∀ xs ys : List Char, runLen xs ys ≤ ys.length := by
  intro xs
  induction xs with
  | nil => intro ys; cases ys <;> simp [runLen]
  | cons x xs ih =>
    intro ys
    cases ys with
    | nil => simp [runLen]
    | cons y ys =>
      by_cases h : x = y
      · simp only [runLen, if_pos h, List.length_cons]
        exact Nat.succ_le_succ (ih ys)
      · simp [runLen, h]

theorem runLenP_le_runLen (pop : Char → Bool) :
    ∀ xs ys : List Char, runLenP pop xs ys ≤ runLen xs ys := by
  intro xs
  induction xs with
  | nil => intro ys; cases ys <;> simp [runLenP]
  | cons x xs ih =>
    intro ys
    cases ys with
    | nil => simp [runLenP]
    | cons y ys =>
      by_cases h : x = y ∧ pop y = false
      · simp only [runLenP, if_pos h, runLen, if_pos h.1]
        exact Nat.succ_le_succ (ih ys)
      · simp [runLenP, h]

theorem runLen_take_eq :
    ∀ (k : ℕ) (xs ys : List Char), k ≤ runLen xs ys → xs.take k = ys.take k := by
  intro k
  induction k with
  | zero => intro xs ys _; simp
  | succ k ih =>
    intro xs ys h
    cases xs with
    | nil => simp [runLen] at h
    | cons x xs =>
      cases ys with
      | nil => simp [runLen] at h
      | cons y ys =>
        by_cases hx : x = y
        · simp only [runLen, if_pos hx] at h
          simp [hx, List.take_succ_cons, ih xs ys (Nat.le_of_succ_le_succ h)]
        · simp [runLen, hx] at h

theorem runLen_succ :
    ∀ (k : ℕ) (xs ys : List Char), k ≤ runLen xs ys → k < xs.length → k < ys.length →
      xs.getD k ' ' = ys.getD k ' ' → k + 1 ≤ runLen xs ys := by
  intro k
  induction k with
  | zero =>
    intro xs ys _ hx hy hg
    cases xs with
    | nil => simp at hx
    | cons x xs =>
      cases ys with
      | nil => simp at hy
      | cons y ys =>
        simp only [List.getD_cons_zero] at hg
        simp [runLen, hg]
  | succ k ih =>
    intro xs ys h hx hy hg
    cases xs with
    | nil => simp at hx
    | cons x xs =>
      cases ys with
      | nil => simp at hy
      | cons y ys =>
        by_cases hxy : x = y
        · simp only [runLen, if_pos hxy] at h ⊢
          have := ih xs ys (Nat.le_of_succ_le_succ h) (by simpa using hx) (by simpa using hy)
            (by simpa using hg)
          omega
        · simp [runLen, hxy] at h

theorem runLenP_le_self_right (pop : Char → Bool) :
    ∀ xs ys : List Char, runLenP pop xs ys ≤ runLenP pop ys ys := by
  intro xs
  induction xs with
  | nil => intro ys; cases ys <;> simp [runLenP]
  | cons x xs ih =>
    intro ys
    cases ys with
    | nil => simp [runLenP]
    | cons y ys =>
      by_cases h : x = y ∧ pop y = false
      · have hy : (y = y ∧ pop y = false) := ⟨rfl, h.2⟩
        rw [runLenP, runLenP, if_pos h, if_pos hy]
        exact Nat.succ_le_succ (ih ys)
      · simp [runLenP, h]

theorem runLenP_le_self_left (pop : Char → Bool) :
    ∀ xs ys : List Char, runLenP pop xs ys ≤ runLenP pop xs xs := by
  intro xs
  induction xs with
  | nil => intro ys; cases ys <;> simp [runLenP]
  | cons x xs ih =>
    intro ys
    cases ys with
    | nil => simp [runLenP]
    | cons y ys =>
      by_cases h : x = y ∧ pop y = false
      · have hx : (x = x ∧ pop x = false) := ⟨rfl, h.1 ▸ h.2⟩
        rw [runLenP, runLenP, if_pos h, if_pos hx]
        exact Nat.succ_le_succ (ih ys)
      · simp [runLenP, h]

/-- A generic invariant-preservation principle for `List.foldl`. -/
theorem foldl_inv {α β : Type} (P : β → Prop) (f : β → α → β) :
    ∀ (l : List α) (init : β), P init → (∀ b x, x ∈ l → P b → P (f b x)) →
      P (l.foldl f init) := by
  intro l
  induction l with
  | nil => intro init h _; simpa using h
  | cons x xs ih =>
    intro init h hstep
    simp only [List.foldl_cons]
    exact ih (f init x) (hstep init x (List.mem_cons_self x xs) h)
      (fun b y hy => hstep b y (List.mem_cons_of_mem x hy))

theorem mem_pairsLex {n m : ℕ} {p : ℕ × ℕ} (h : p ∈ pairsLex n m) : p.1 < n ∧ p.2 < m := by
  obtain ⟨l, hl, hpl⟩ := List.mem_flatten.1 h
  obtain ⟨i, hi, rfl⟩ := List.mem_map.1 hl
  obtain ⟨j, hj, rfl⟩ := List.mem_map.1 hpl
  exact ⟨List.mem_range.1 hi, List.mem_range.1 hj⟩

theorem bestMatchP_inv (pop : Char → Bool) (a b : List Char) :
    matchInv a b (bestMatchP pop a b) ∧
      (bestMatchP pop a b = (0, 0, 0) ∨ 1 ≤ (bestMatchP pop a b).2.2) := by
  refine foldl_inv (fun t => matchInv a b t ∧ (t = (0, 0, 0) ∨ 1 ≤ t.2.2)) _ _ _
    ⟨⟨by simp [runLen], by simp, by simp⟩, Or.inl rfl⟩ ?_
  rintro t p hp ⟨hinv, hz⟩
  by_cases hlt : t.2.2 < runAtP pop a b p.1 p.2
  · rw [bmStep, if_pos hlt]
    refine ⟨⟨?_, ?_, ?_⟩, Or.inr (by simp; omega)⟩
    · exact runLenP_le_runLen pop _ _
    · exact le_of_lt (mem_pairsLex hp).1
    · exact le_of_lt (mem_pairsLex hp).2
  · rw [bmStep, if_neg hlt]
    exact ⟨hinv, hz⟩

theorem extendLeft_inv (a b : List Char) :
    ∀ (i j k : ℕ), matchInv a b (i, j, k) → matchInv a b (extendLeft a b i j k) := by
  intro i
  induction i with
  | zero => intro j k h; simpa [extendLeft] using h
  | succ i ih =>
    intro j k h
    cases j with
    | zero => simpa [extendLeft] using h
    | succ j =>
      simp only [extendLeft]
      split
      next hc0 =>
        have hc : a.getD i ' ' = b.getD j ' ' := hc0
        refine ih j (k + 1) ?_
        obtain ⟨hrun, hi, hj⟩ := h
        have hia : i < a.length := Nat.lt_of_lt_of_le (Nat.lt_succ_self i) hi
        have hjb : j < b.length := Nat.lt_of_lt_of_le (Nat.lt_succ_self j) hj
        refine ⟨?_, le_of_lt hia, le_of_lt hjb⟩
        have hda : a.drop i = a.getD i ' ' :: a.drop (i + 1) := by
          rw [List.getD_eq_getElem _ _ hia]
          exact List.drop_eq_getElem_cons hia
        have hdb : b.drop j = b.getD j ' ' :: b.drop (j + 1) := by
          rw [List.getD_eq_getElem _ _ hjb]
          exact List.drop_eq_getElem_cons hjb
        rw [hda, hdb, hc]
        simp only [runLen, if_pos rfl]
        exact Nat.succ_le_succ (by simpa using hrun)
      next hc0 => exact h

theorem extendLeft_k_ge (a b : List Char) :
    ∀ (i j k : ℕ), k ≤ (extendLeft a b i j k).2.2 := by
  intro i
  induction i with
  | zero => intro j k; simp [extendLeft]
  | succ i ih =>
    intro j k
    cases j with
    | zero => simp [extendLeft]
    | succ j =>
      simp only [extendLeft]
      split
      next => exact le_trans (Nat.le_succ k) (ih j (k + 1))
      next => simp

theorem extendLeft_diag (a : List Char) :
    ∀ (i k : ℕ), (extendLeft a a i i k).1 = (extendLeft a a i i k).2.1 := by
  intro i
  induction i with
  | zero => intro k; simp [extendLeft]
  | succ i ih =>
    intro k
    simp only [extendLeft]
    split
    next => exact ih (k + 1)
    next hc => exact absurd trivial hc

theorem extendRightAux_congr (a b : List Char) (i j : ℕ) :
    ∀ (f1 f2 k : ℕ), a.length - (i + k) ≤ f1 → a.length - (i + k) ≤ f2 →
      extendRightAux a b i j f1 k = extendRightAux a b i j f2 k := by
  intro f1
  induction f1 with
  | zero =>
    intro f2 k h1 _
    cases f2 with
    | zero => rfl
    | succ f2 =>
      rw [extendRightAux, extendRightAux, if_neg]
      intro hc
      exact absurd hc.1 (by omega)
  | succ f1 ih =>
    intro f2 k h1 h2
    cases f2 with
    | zero =>
      rw [extendRightAux, extendRightAux, if_neg]
      intro hc
      exact absurd hc.1 (by omega)
    | succ f2 =>
      rw [extendRightAux, extendRightAux]
      by_cases hc : i + k < a.length ∧ j + k < b.length ∧
        a.getD (i + k) ' ' = b.getD (j + k) ' '
      · rw [if_pos hc, if_pos hc]
        exact ih f2 (k + 1) (by omega) (by omega)
      · rw [if_neg hc, if_neg hc]

/-- The loop equation of the second extension loop. -/
theorem extendRight_eq (a b : List Char) (i j k : ℕ) :
    extendRight a b i j k =
      if i + k < a.length ∧ j + k < b.length ∧ a.getD (i + k) ' ' = b.getD (j + k) ' ' then
        extendRight a b i j (k + 1)
      else k := by
  by_cases hc : i + k < a.length ∧ j + k < b.length ∧ a.getD (i + k) ' ' = b.getD (j + k) ' '
  · have h1 : a.length - (i + k) = (a.length - (i + (k + 1))) + 1 := by
      have := hc.1
      omega
    rw [extendRight, h1, extendRightAux, if_pos hc, if_pos hc, extendRight]
  · rw [if_neg hc, extendRight]
    cases hfz : a.length - (i + k) with
    | zero => rfl
    | succ t => rw [extendRightAux, if_neg hc]

theorem extendRight_inv (a b : List Char) (i j : ℕ) :
    ∀ (k : ℕ), matchInv a b (i, j, k) → matchInv a b (i, j, extendRight a b i j k) := by
  have H : ∀ (n k : ℕ), a.length - (i + k) ≤ n → matchInv a b (i, j, k) →
      matchInv a b (i, j, extendRight a b i j k) := by
    intro n
    induction n with
    | zero =>
      intro k hn h
      rw [extendRight_eq]
      split
      next hc => exact absurd hc.1 (by omega)
      next => exact h
    | succ n ih =>
      intro k hn h
      rw [extendRight_eq]
      split
      next hc =>
        refine ih (k + 1) (by omega) ?_
        obtain ⟨hrun, hi, hj⟩ := h
        have hc3 : a.getD (i + k) ' ' = b.getD (j + k) ' ' := hc.2.2
        refine ⟨?_, hi, hj⟩
        refine runLen_succ k _ _ (by simpa using hrun)
          (by simp only [List.length_drop]; omega)
          (by simp only [List.length_drop]; omega) ?_
        have hka : k < (a.drop i).length := by simp only [List.length_drop]; omega
        have hkb : k < (b.drop j).length := by simp only [List.length_drop]; omega
        have h1 : (a.drop i).getD k ' ' = a.getD (i + k) ' ' := by
          rw [List.getD_eq_getElem _ _ hka, List.getD_eq_getElem _ _ (show i + k < a.length from hc.1)]
          simp
        have h2 : (b.drop j).getD k ' ' = b.getD (j + k) ' ' := by
          rw [List.getD_eq_getElem _ _ hkb, List.getD_eq_getElem _ _ (show j + k < b.length from hc.2.1)]
          simp
        rw [h1, h2, hc3]
      next => exact h
  intro k
  exact H (a.length - (i + k)) k (le_refl _)

theorem extendRight_k_ge (a b : List Char) (i j : ℕ) :
    ∀ (k : ℕ), k ≤ extendRight a b i j k := by
  have H : ∀ (n k : ℕ), a.length - (i + k) ≤ n → k ≤ extendRight a b i j k := by
    intro n
    induction n with
    | zero =>
      intro k hn
      rw [extendRight_eq]
      split
      next hc => exact absurd hc.1 (by omega)
      next => exact le_refl k
    | succ n ih =>
      intro k hn
      rw [extendRight_eq]
      split
      next hc => exact le_trans (Nat.le_succ k) (ih (k + 1) (by omega))
      next => exact le_refl k
  intro k
  exact H (a.length - (i + k)) k (le_refl _)

theorem flmP_inv (pop : Char → Bool) (a b : List Char) : matchInv a b (flmP pop a b) := by
  have h1 := (bestMatchP_inv pop a b).1
  have h2 := extendLeft_inv a b (bestMatchP pop a b).1 (bestMatchP pop a b).2.1
    (bestMatchP pop a b).2.2 h1
  have h3 := extendRight_inv a b (extendLeft a b (bestMatchP pop a b).1
    (bestMatchP pop a b).2.1 (bestMatchP pop a b).2.2).1
    (extendLeft a b (bestMatchP pop a b).1 (bestMatchP pop a b).2.1 (bestMatchP pop a b).2.2).2.1
    (extendLeft a b (bestMatchP pop a b).1 (bestMatchP pop a b).2.1 (bestMatchP pop a b).2.2).2.2
    (by simpa using h2)
  simpa [flmP] using h3

theorem flmP_bounds (pop : Char → Bool) (a b : List Char) :
    (flmP pop a b).1 + (flmP pop a b).2.2 ≤ a.length ∧
      (flmP pop a b).2.1 + (flmP pop a b).2.2 ≤ b.length := by
  obtain ⟨hrun, hi, hj⟩ := flmP_inv pop a b
  constructor
  · have := le_trans hrun (runLen_le_left _ _)
    simp only [List.length_drop] at this
    omega
  · have := le_trans hrun (runLen_le_right _ _)
    simp only [List.length_drop] at this
    omega

theorem matchTotalAux_congr (pop : Char → Bool) :
    ∀ (f1 f2 : ℕ) (a b : List Char), a.length < f1 → a.length < f2 →
      matchTotalAux pop f1 a b = matchTotalAux pop f2 a b := by
  intro f1
  induction f1 with
  | zero => intro f2 a b h1 _; omega
  | succ f1 ih =>
    intro f2 a b h1 h2
    cases f2 with
    | zero => omega
    | succ f2 =>
      simp only [matchTotalAux]
      by_cases hz : (flmP pop a b).2.2 = 0
      · simp [hz]
      · simp only [if_neg hz]
        have hb := flmP_bounds pop a b
        have l1a : (a.take (flmP pop a b).1).length < f1 := by
          simp only [List.length_take]; omega
        have l1b : (a.take (flmP pop a b).1).length < f2 := by
          simp only [List.length_take]; omega
        have l2a : (a.drop ((flmP pop a b).1 + (flmP pop a b).2.2)).length < f1 := by
          simp only [List.length_drop]; omega
        have l2b : (a.drop ((flmP pop a b).1 + (flmP pop a b).2.2)).length < f2 := by
          simp only [List.length_drop]; omega
        rw [ih f2 (a.take (flmP pop a b).1) (b.take (flmP pop a b).2.1) l1a l1b,
          ih f2 (a.drop ((flmP pop a b).1 + (flmP pop a b).2.2))
            (b.drop ((flmP pop a b).2.1 + (flmP pop a b).2.2)) l2a l2b]

/-- The recurrence that `matchTotalP` satisfies: the fuel of `matchTotalAux`
never runs out. -/
theorem matchTotalP_eq (pop : Char → Bool) (a b : List Char) :
    matchTotalP pop a b =
      if (flmP pop a b).2.2 = 0 then 0
      else
        matchTotalP pop (a.take (flmP pop a b).1) (b.take (flmP pop a b).2.1) +
          (flmP pop a b).2.2 +
          matchTotalP pop (a.drop ((flmP pop a b).1 + (flmP pop a b).2.2))
            (b.drop ((flmP pop a b).2.1 + (flmP pop a b).2.2)) := by
  by_cases hz : (flmP pop a b).2.2 = 0
  · rw [matchTotalP, matchTotalAux]
    simp [hz]
  · have hb := flmP_bounds pop a b
    have l1a : (a.take (flmP pop a b).1).length < a.length := by
      simp only [List.length_take]; omega
    have l2a : (a.drop ((flmP pop a b).1 + (flmP pop a b).2.2)).length < a.length := by
      simp only [List.length_drop]; omega
    rw [matchTotalP, matchTotalAux]
    simp only [if_neg hz]
    rw [matchTotalP, matchTotalP,
      matchTotalAux_congr pop a.length ((a.take (flmP pop a b).1).length + 1)
        (a.take (flmP pop a b).1) (b.take (flmP pop a b).2.1) l1a (Nat.lt_succ_self _),
      matchTotalAux_congr pop a.length ((a.drop ((flmP pop a b).1 + (flmP pop a b).2.2)).length + 1)
        (a.drop ((flmP pop a b).1 + (flmP pop a b).2.2))
        (b.drop ((flmP pop a b).2.1 + (flmP pop a b).2.2)) l2a (Nat.lt_succ_self _)]

theorem matchTotalP_le (pop : Char → Bool) :
    ∀ (n : ℕ) (a b : List Char), a.length ≤ n →
      matchTotalP pop a b ≤ a.length ∧ matchTotalP pop a b ≤ b.length := by
  intro n
  induction n with
  | zero =>
    intro a b h
    rw [matchTotalP_eq]
    by_cases hz : (flmP pop a b).2.2 = 0
    · simp [hz]
    · have hb := flmP_bounds pop a b
      omega
  | succ n ih =>
    intro a b h
    rw [matchTotalP_eq]
    by_cases hz : (flmP pop a b).2.2 = 0
    · simp [hz]
    · simp only [if_neg hz]
      have hb := flmP_bounds pop a b
      have h1 := ih (a.take (flmP pop a b).1) (b.take (flmP pop a b).2.1)
        (by simp only [List.length_take]; omega)
      have h2 := ih (a.drop ((flmP pop a b).1 + (flmP pop a b).2.2))
        (b.drop ((flmP pop a b).2.1 + (flmP pop a b).2.2))
        (by simp only [List.length_drop]; omega)
      simp only [List.length_take, List.length_drop] at h1 h2
      omega

/-- `calcRatio` is the `2.0 * matches / length` of `difflib._calculate_ratio`. -/
theorem calcRatio_eq_div (m t : ℕ) : calcRatio m t = if t = 0 then 1 else 2 * (m : ℚ) / t := by
  rw [calcRatio]
  by_cases h : t = 0
  · simp [h]
  · rw [if_neg h, if_neg h, Rat.mkRat_eq_div]
    push_cast
    ring

/-- The embedded cutoff is the call site's `0.8`. -/
theorem cutoff08_eq : cutoff08 = 4 / 5 := by
  rw [cutoff08, Rat.mkRat_eq_div]
  norm_num

/-- If the matching total saturates both lengths, the two strings are equal
(`ratio() == 1.0` only on equal sequences). -/
theorem matchTotalP_full (pop : Char → Bool) :
    ∀ (n : ℕ) (a b : List Char), a.length ≤ n →
      matchTotalP pop a b = a.length → matchTotalP pop a b = b.length → a = b := by
  intro n
  induction n with
  | zero =>
    intro a b hn ha hb
    have hle := matchTotalP_le pop a.length a b (le_refl _)
    have ha0 : a = [] := List.length_eq_zero.1 (by omega)
    have hb0 : b = [] := List.length_eq_zero.1 (by omega)
    rw [ha0, hb0]
  | succ n ih =>
    intro a b hn ha hb
    rw [matchTotalP_eq] at ha hb
    by_cases hz : (flmP pop a b).2.2 = 0
    · rw [if_pos hz] at ha hb
      have ha0 : a = [] := List.length_eq_zero.1 ha.symm
      have hb0 : b = [] := List.length_eq_zero.1 hb.symm
      rw [ha0, hb0]
    · rw [if_neg hz] at ha hb
      obtain ⟨hrun, hile, hjle⟩ := flmP_inv pop a b
      have hbnd := flmP_bounds pop a b
      set i := (flmP pop a b).1 with hidef
      set j := (flmP pop a b).2.1 with hjdef
      set k := (flmP pop a b).2.2 with hkdef
      have hm1 := matchTotalP_le pop (a.take i).length (a.take i) (b.take j) (le_refl _)
      have hm2 := matchTotalP_le pop (a.drop (i + k)).length (a.drop (i + k))
        (b.drop (j + k)) (le_refl _)
      simp only [List.length_take, List.length_drop] at hm1 hm2
      have hij : i = j := by omega
      have e1 : matchTotalP pop (a.take i) (b.take j) = (a.take i).length := by
        simp only [List.length_take]; omega
      have e1b : matchTotalP pop (a.take i) (b.take j) = (b.take j).length := by
        simp only [List.length_take]; omega
      have e2 : matchTotalP pop (a.drop (i + k)) (b.drop (j + k)) =
          (a.drop (i + k)).length := by
        simp only [List.length_drop]; omega
      have e2b : matchTotalP pop (a.drop (i + k)) (b.drop (j + k)) =
          (b.drop (j + k)).length := by
        simp only [List.length_drop]; omega
      have ht : a.take i = b.take j :=
        ih (a.take i) (b.take j) (by simp only [List.length_take]; omega) e1 e1b
      have hd : a.drop (i + k) = b.drop (j + k) :=
        ih (a.drop (i + k)) (b.drop (j + k)) (by simp only [List.length_drop]; omega) e2 e2b
      have hmid : (a.drop i).take k = (b.drop j).take k := runLen_take_eq k _ _ hrun
      have hda : (a.drop i).drop k = a.drop (i + k) := by
        rw [List.drop_drop, Nat.add_comm]
      have hdb : (b.drop j).drop k = b.drop (j + k) := by
        rw [List.drop_drop, Nat.add_comm]
      calc a = a.take i ++ ((a.drop i).take k ++ (a.drop i).drop k) := by
            rw [List.take_append_drop, List.take_append_drop]
        _ = b.take j ++ ((b.drop j).take k ++ (b.drop j).drop k) := by
            rw [ht, hmid, hda, hdb, hd]
        _ = b := by rw [List.take_append_drop, List.take_append_drop]

theorem foldl_bmStep_no_update (pop : Char → Bool) (a b : List Char) :
    ∀ (l : List (ℕ × ℕ)) (best : ℕ × ℕ × ℕ),
      (∀ p ∈ l, runAtP pop a b p.1 p.2 ≤ best.2.2) →
      l.foldl (bmStep pop a b) best = best := by
  intro l
  induction l with
  | nil => intro best _; rfl
  | cons p ps ih =>
    intro best h
    simp only [List.foldl_cons]
    have hnp : bmStep pop a b best p = best := by
      rw [bmStep, if_neg]
      have := h p (List.mem_cons_self p ps)
      omega
    rw [hnp]
    exact ih best (fun q hq => h q (List.mem_cons_of_mem p hq))

theorem foldl_bmStep_k_mono (pop : Char → Bool) (a b : List Char) :
    ∀ (l : List (ℕ × ℕ)) (best : ℕ × ℕ × ℕ),
      best.2.2 ≤ (l.foldl (bmStep pop a b) best).2.2 := by
  intro l
  induction l with
  | nil => intro best; exact le_refl _
  | cons p ps ih =>
    intro best
    simp only [List.foldl_cons]
    refine le_trans ?_ (ih (bmStep pop a b best p))
    rw [bmStep]
    split
    next h => simpa using le_of_lt h
    next => exact le_refl _

/-- `foldl` over a flattened list of lists folds the lists one by one. -/
theorem foldl_flatten' {α β : Type} (f : β → α → β) :
    ∀ (L : List (List α)) (init : β),
      L.flatten.foldl f init = L.foldl (fun acc l => l.foldl f acc) init := by
  intro L
  induction L with
  | nil => intro init; rfl
  | cons l ls ih =>
    intro init
    simp only [List.flatten_cons, List.foldl_append, List.foldl_cons]
    exact ih (l.foldl f init)

/-- The main loop processes the pairs row by row. -/
theorem bestMatchP_as_rows (pop : Char → Bool) (a b : List Char) :
    bestMatchP pop a b =
      (List.range a.length).foldl
        (fun acc i => ((List.range b.length).map (fun j => (i, j))).foldl (bmStep pop a b) acc)
        (0, 0, 0) := by
  rw [bestMatchP, pairsLex, foldl_flatten', List.foldl_map]

/-- Processing one row of the scan on `a` against itself: if the running best
block is diagonal and dominates every earlier diagonal run, the same holds
after the row.  Off-diagonal pairs `(i, j)` never win because the diagonal
runs `(j, j)` (already dominated, for `j < i`) and `(i, i)` (processed first
in this row, for `j > i`) are at least as long: a run of `a` against itself
starting at `(i, j)` consists of equal characters, so it is also a run at
`(i, i)` and at `(j, j)`. -/
theorem bm_row_step (pop : Char → Bool) (a : List Char) (i : ℕ) (hi : i < a.length)
    (best : ℕ × ℕ × ℕ) (hdiag : best.1 = best.2.1)
    (hprev : ∀ r, r < i → runAtP pop a a r r ≤ best.2.2) :
    (((List.range a.length).map (fun j => (i, j))).foldl (bmStep pop a a) best).1 =
        (((List.range a.length).map (fun j => (i, j))).foldl (bmStep pop a a) best).2.1 ∧
      ∀ r, r < i + 1 → runAtP pop a a r r ≤
        (((List.range a.length).map (fun j => (i, j))).foldl (bmStep pop a a) best).2.2 := by
  have hsplit : List.range a.length =
      List.range i ++ i :: List.range' (i + 1) (a.length - i - 1) := by
    rw [List.range_eq_range', List.range_eq_range']
    have h2 : ∀ t, a.length - i = t + 1 →
        (i : ℕ) :: List.range' (i + 1) t = List.range' i (a.length - i) := by
      intro t ht
      rw [ht, List.range'_succ]
    rw [h2 (a.length - i - 1) (by omega)]
    have h := List.range'_append_1 0 i (a.length - i)
    rw [Nat.zero_add] at h
    rw [h]
    congr 1
    omega
  rw [hsplit, List.map_append, List.foldl_append, List.map_cons, List.foldl_cons]
  have hA : ((List.range i).map (fun j => (i, j))).foldl (bmStep pop a a) best = best := by
    apply foldl_bmStep_no_update
    intro p hp
    obtain ⟨j, hj, rfl⟩ := List.mem_map.1 hp
    exact le_trans (runLenP_le_self_right pop _ _) (hprev j (List.mem_range.1 hj))
  rw [hA]
  set b1 := bmStep pop a a best (i, i) with hb1
  have hb1diag : b1.1 = b1.2.1 := by
    rw [hb1, bmStep]
    split
    next => rfl
    next => exact hdiag
  have hb1k : runAtP pop a a i i ≤ b1.2.2 ∧ best.2.2 ≤ b1.2.2 := by
    rw [hb1, bmStep]
    split
    next h => exact ⟨le_refl _, le_of_lt h⟩
    next h => exact ⟨Nat.le_of_not_lt h, le_refl _⟩
  have hB : ((List.range' (i + 1) (a.length - i - 1)).map (fun j => (i, j))).foldl
      (bmStep pop a a) b1 = b1 := by
    apply foldl_bmStep_no_update
    intro p hp
    obtain ⟨j, hj, rfl⟩ := List.mem_map.1 hp
    exact le_trans (runLenP_le_self_left pop _ _) hb1k.1
  rw [hB]
  refine ⟨hb1diag, ?_⟩
  intro r hr
  rcases Nat.lt_succ_iff_lt_or_eq.1 hr with h | h
  · exact le_trans (hprev r h) hb1k.2
  · rw [h]
    exact hb1k.1

/-- On a string against itself the main loop returns a diagonal block. -/
theorem bestMatchP_self_diag (pop : Char → Bool) (a : List Char) :
    (bestMatchP pop a a).1 = (bestMatchP pop a a).2.1 := by
  have H : ∀ n, n ≤ a.length →
      ((List.range n).foldl
          (fun acc i => ((List.range a.length).map (fun j => (i, j))).foldl (bmStep pop a a) acc)
          (0, 0, 0)).1 =
        ((List.range n).foldl
          (fun acc i => ((List.range a.length).map (fun j => (i, j))).foldl (bmStep pop a a) acc)
          (0, 0, 0)).2.1 ∧
      ∀ r, r < n → runAtP pop a a r r ≤
        ((List.range n).foldl
          (fun acc i => ((List.range a.length).map (fun j => (i, j))).foldl (bmStep pop a a) acc)
          (0, 0, 0)).2.2 := by
    intro n
    induction n with
    | zero => intro _; exact ⟨rfl, fun r hr => absurd hr (Nat.not_lt_zero r)⟩
    | succ n ih =>
      intro hn
      rw [List.range_succ, List.foldl_append, List.foldl_cons, List.foldl_nil]
      exact bm_row_step pop a n (by omega) _ (ih (by omega)).1 (ih (by omega)).2
  rw [bestMatchP_as_rows pop a a]
  exact (H a.length (le_refl _)).1

/-- On a nonempty string against itself, `find_longest_match` returns a
diagonal block of positive size. -/
theorem flmP_self (pop : Char → Bool) (a : List Char) (ha : a ≠ []) :
    (flmP pop a a).1 = (flmP pop a a).2.1 ∧ 1 ≤ (flmP pop a a).2.2 := by
  constructor
  · simp only [flmP]
    rw [← bestMatchP_self_diag pop a]
    exact extendLeft_diag a (bestMatchP pop a a).1 (bestMatchP pop a a).2.2
  · rcases (bestMatchP_inv pop a a).2 with h0 | h1
    · simp only [flmP, h0, extendLeft]
      rw [extendRight_eq]
      split
      next => exact extendRight_k_ge a a 0 0 1
      next hc =>
        refine absurd ⟨?_, ?_, rfl⟩ hc <;> simpa using List.length_pos.2 ha
    · simp only [flmP]
      exact le_trans h1 (le_trans (extendLeft_k_ge a a _ _ _) (extendRight_k_ge a a _ _ _))

/-- `get_matching_blocks` on a string against itself matches everything:
the recursion always splits around a diagonal block. -/
theorem matchTotalP_self (pop : Char → Bool) :
    ∀ (n : ℕ) (a : List Char), a.length ≤ n → matchTotalP pop a a = a.length := by
  intro n
  induction n with
  | zero =>
    intro a h
    have ha : a = [] := List.length_eq_zero.1 (by omega)
    subst ha
    rfl
  | succ n ih =>
    intro a h
    by_cases ha : a = []
    · subst ha
      rfl
    · obtain ⟨hdiag, hk⟩ := flmP_self pop a ha
      have hbnd := flmP_bounds pop a a
      rw [matchTotalP_eq, if_neg (by omega)]
      rw [← hdiag]
      set i := (flmP pop a a).1 with hidef
      set k := (flmP pop a a).2.2 with hkdef
      have h1 : matchTotalP pop (a.take i) (a.take i) = (a.take i).length :=
        ih (a.take i) (by simp only [List.length_take]; omega)
      have h2 : matchTotalP pop (a.drop (i + k)) (a.drop (i + k)) = (a.drop (i + k)).length :=
        ih (a.drop (i + k)) (by simp only [List.length_drop]; omega)
      rw [h1, h2]
      simp only [List.length_take, List.length_drop]
      omega

/-- `ratio()` never exceeds `1.0`. -/
theorem simRatio_le_one (a b : List Char) : simRatio a b ≤ 1 := by
  rw [simRatio, calcRatio]
  by_cases h : a.length + b.length = 0
  · simp [h]
  · rw [if_neg h]
    have hm := matchTotalP_le (popularP b) a.length a b (le_refl _)
    have hnat : 2 * matchTotalP (popularP b) a b ≤ a.length + b.length := by omega
    rw [Rat.mkRat_eq_div, div_le_one (by exact_mod_cast Nat.pos_of_ne_zero h)]
    exact_mod_cast hnat

/-- `ratio()` of a string with itself is `1.0`, also when autojunk is active. -/
theorem simRatio_self (a : List Char) : simRatio a a = 1 := by
  rw [simRatio, calcRatio]
  by_cases h : a.length + a.length = 0
  · simp [h]
  · rw [if_neg h, matchTotalP_self (popularP a) a.length a (le_refl _),
      Rat.mkRat_eq_div, div_eq_one_iff_eq (by exact_mod_cast h)]
    push_cast
    ring

/-- `ratio() == 1.0` forces the two strings to be equal. -/
theorem simRatio_eq_one (a b : List Char) (h : simRatio a b = 1) : a = b := by
  rw [simRatio, calcRatio] at h
  by_cases hz : a.length + b.length = 0
  · have ha : a = [] := List.length_eq_zero.1 (by omega)
    have hb : b = [] := List.length_eq_zero.1 (by omega)
    rw [ha, hb]
  · rw [if_neg hz, Rat.mkRat_eq_div, div_eq_one_iff_eq (by exact_mod_cast hz)] at h
    have hnat : 2 * matchTotalP (popularP b) a b = a.length + b.length := by exact_mod_cast h
    have hm := matchTotalP_le (popularP b) a.length a b (le_refl _)
    exact matchTotalP_full (popularP b) a.length a b (le_refl _) (by omega) (by omega)

theorem msInter_self : ∀ a : List Char, msInter a a = a.length := by
  intro a
  induction a with
  | nil => rfl
  | cons x xs ih =>
    rw [msInter, if_pos (List.mem_cons_self x xs), List.erase_cons_head, ih]
    simp

theorem quickRat_self (a : List Char) : quickRat a a = 1 := by
  rw [quickRat, msInter_self, calcRatio]
  by_cases h : a.length + a.length = 0
  · simp [h]
  · rw [if_neg h, Rat.mkRat_eq_div, div_eq_one_iff_eq (by exact_mod_cast h)]
    push_cast
    ring

theorem realQuickRat_self (a : List Char) : realQuickRat a a = 1 := by
  rw [realQuickRat, min_self, calcRatio]
  by_cases h : a.length + a.length = 0
  · simp [h]
  · rw [if_neg h, Rat.mkRat_eq_div, div_eq_one_iff_eq (by exact_mod_cast h)]
    push_cast
    ring

/-- An exact copy of the word always passes the acceptance test when the
cutoff is at most `1`. -/
theorem closeCond_self (w : List Char) (c : ℚ) (hc : c ≤ 1) : closeCond w w c = true := by
  rw [closeCond, decide_eq_true_eq]
  exact ⟨by rw [realQuickRat_self]; exact hc, by rw [quickRat_self]; exact hc,
    by rw [simRatio_self]; exact hc⟩

theorem tupleGtB_true_ratio {r1 r2 : ℚ} {s1 s2 : List Char}
    (h : tupleGtB r1 s1 r2 s2 = true) : r2 ≤ r1 := by
  rw [tupleGtB] at h
  split at h
  next hlt => exact le_of_lt hlt
  next =>
    split at h
    next heq => exact le_of_eq heq.symm
    next => exact absurd h (by simp)

theorem tupleGtB_false_ratio {r1 r2 : ℚ} {s1 s2 : List Char}
    (h : tupleGtB r1 s1 r2 s2 = false) : r1 ≤ r2 := by
  rw [tupleGtB] at h
  split at h
  next => exact absurd h (by simp)
  next hlt => exact le_of_not_lt hlt

/-- The element `heapq.nlargest(1, ...)` keeps is one of the candidates. -/
theorem fold_pick_mem (w : List Char) :
    ∀ (l : List (List Char)) (init : List Char),
      (l.foldl
          (fun best x => if tupleGtB (simRatio x w) x (simRatio best w) best then x else best)
          init) ∈ init :: l := by
  intro l
  induction l with
  | nil => intro init; simp
  | cons y ys ih =>
    intro init
    simp only [List.foldl_cons]
    have hmem := ih (if tupleGtB (simRatio y w) y (simRatio init w) init then y else init)
    rcases List.mem_cons.1 hmem with h | h
    · rw [h]
      split
      next => exact List.mem_cons_of_mem _ (List.mem_cons_self _ _)
      next => exact List.mem_cons_self _ _
    · exact List.mem_cons_of_mem _ (List.mem_cons_of_mem _ h)

/-- The kept element has the largest ratio among the candidates. -/
theorem fold_pick_ratio_le (w : List Char) :
    ∀ (l : List (List Char)) (init : List Char) (x : List Char), x ∈ init :: l →
      simRatio x w ≤
        simRatio
          (l.foldl
            (fun best x => if tupleGtB (simRatio x w) x (simRatio best w) best then x else best)
            init) w := by
  intro l
  induction l with
  | nil =>
    intro init x hx
    rcases List.mem_cons.1 hx with h | h
    · rw [h, List.foldl_nil]
    · simp at h
  | cons y ys ih =>
    intro init x hx
    simp only [List.foldl_cons]
    have hinit : simRatio init w ≤
        simRatio (if tupleGtB (simRatio y w) y (simRatio init w) init then y else init) w := by
      by_cases hgt : tupleGtB (simRatio y w) y (simRatio init w) init = true
      · rw [if_pos hgt]
        exact tupleGtB_true_ratio hgt
      · rw [if_neg hgt]
    have hy : simRatio y w ≤
        simRatio (if tupleGtB (simRatio y w) y (simRatio init w) init then y else init) w := by
      by_cases hgt : tupleGtB (simRatio y w) y (simRatio init w) init = true
      · rw [if_pos hgt]
      · rw [if_neg hgt]
        exact tupleGtB_false_ratio (Bool.not_eq_true _ ▸ hgt : _ = false)
    rcases List.mem_cons.1 hx with h | h
    · rw [h]
      exact le_trans hinit
        (ih _ _ (List.mem_cons_self _ _))
    · rcases List.mem_cons.1 h with h2 | h2
      · rw [h2]
        exact le_trans hy (ih _ _ (List.mem_cons_self _ _))
      · exact ih _ x (List.mem_cons_of_mem _ h2)

set_option maxRecDepth 100000 in
/-- C3 counterexample: resolving `"abcd"` against the pool title `"abcdef"`
yields similarity exactly `0.8 = 4/5`, which does NOT exceed the cutoff `0.8`,
yet the resolver accepts the match — `get_close_matches` compares with `>=`,
not with a strict inequality. -/
theorem C3_counterexample :
    resolveTitle [mAbc] (toL "abcd") = some mAbc ∧
      simRatio mAbc.title (cleanTitle (toL "abcd")) = 4 / 5 ∧ ¬((4 : ℚ) / 5 < 4 / 5) := by
  refine ⟨by decide, ?_, lt_irrefl _⟩
  rw [← cutoff08_eq]
  decide

set_option maxRecDepth 1000000 in
/-- C3 amended: the resolver strips a trailing parenthesized four-digit year,
accepts the candidate with the largest similarity PROVIDED its acceptance test
(whose last clause is `ratio >= 0.8`, inclusive) holds, returns `none` when no
pool title passes the test, and resolves the spec's example
`"Inception (2010)"` against `["Inception", "Inception: Cobol Job"]` to the
entry titled `"Inception"`. -/
theorem C3_amended_nonstrict_cutoff :
    (∀ (pool : List Movie) (t : List Char) (m : Movie),
        resolveTitle pool t = some m →
          closeCond (cleanTitle t) m.title cutoff08 = true ∧
            ∀ x ∈ pool.map Movie.title, closeCond (cleanTitle t) x cutoff08 = true →
              simRatio x (cleanTitle t) ≤ simRatio m.title (cleanTitle t)) ∧
      (∀ (pool : List Movie) (t : List Char),
          (∀ x ∈ pool.map Movie.title, closeCond (cleanTitle t) x cutoff08 = false) →
            resolveTitle pool t = none) ∧
      resolveTitle incPool (toL "Inception (2010)") = some incMovie := by
  refine ⟨?_, ?_, by decide⟩
  · intro pool t m hm
    rcases hg : getCloseMatch (cleanTitle t) (pool.map Movie.title) cutoff08 with _ | best
    · rw [resolveTitle, resolveTitleWith, hg] at hm
      exact absurd hm (by simp)
    · rw [resolveTitle, resolveTitleWith, hg] at hm
      have hmt : m.title = best := by simpa using List.find?_some hm
      rw [getCloseMatch] at hg
      rcases hfc : (pool.map Movie.title).filter
          (fun x => closeCond (cleanTitle t) x cutoff08) with _ | ⟨c0, cs⟩
      · rw [hfc] at hg
        exact absurd hg (by simp)
      · rw [hfc] at hg
        have hbest : cs.foldl
            (fun best x => if tupleGtB (simRatio x (cleanTitle t)) x
              (simRatio best (cleanTitle t)) best then x else best) c0 = best := by
          simpa using hg
        have hmem : best ∈ c0 :: cs := hbest ▸ fold_pick_mem (cleanTitle t) cs c0
        rw [← hfc] at hmem
        have h1 := List.mem_filter.1 hmem
        refine ⟨hmt ▸ h1.2, ?_⟩
        intro x hx hcx
        have hxf : x ∈ (pool.map Movie.title).filter
            (fun x => closeCond (cleanTitle t) x cutoff08) :=
          List.mem_filter.2 ⟨hx, hcx⟩
        rw [hfc] at hxf
        rw [hmt, ← hbest]
        exact fold_pick_ratio_le (cleanTitle t) cs c0 x hxf
  · intro pool t hall
    have hfe : (pool.map Movie.title).filter
        (fun x => closeCond (cleanTitle t) x cutoff08) = [] := by
      rw [List.filter_eq_nil_iff]
      intro x hx
      rw [hall x hx]
      simp
    have hgn : getCloseMatch (cleanTitle t) (pool.map Movie.title) cutoff08 = none := by
      rw [getCloseMatch, hfe]
    rw [resolveTitle, resolveTitleWith, hgn]

set_option maxRecDepth 1000000 in
/-- Witness for the amended C3 at the spec's example. -/
theorem C3_witness :
    closeCond (cleanTitle (toL "Inception (2010)")) incMovie.title cutoff08 = true :=
  (C3_amended_nonstrict_cutoff.1 incPool (toL "Inception (2010)") incMovie (by decide)).1

/-- C4: fuzzy resolution is idempotent on exact matches — whenever the cleaned
title string is character-for-character identical to some pool entry's title,
the resolver (with any cutoff at most `1`) returns an entry whose title is that
very string, never `none` and never an entry with a different title. -/
theorem C4_exact_title_resolves (c : ℚ) (hc : c ≤ 1) (pool : List Movie) (t : List Char)
    (h : cleanTitle t ∈ pool.map Movie.title) :
    ∃ m, resolveTitleWith c pool t = some m ∧ m.title = cleanTitle t := by
  have hwf : cleanTitle t ∈ (pool.map Movie.title).filter
      (fun x => closeCond (cleanTitle t) x c) :=
    List.mem_filter.2 ⟨h, closeCond_self (cleanTitle t) c hc⟩
  rcases hfc : (pool.map Movie.title).filter (fun x => closeCond (cleanTitle t) x c)
    with _ | ⟨c0, cs⟩
  · rw [hfc] at hwf
    simp at hwf
  · rw [hfc] at hwf
    have hge : simRatio (cleanTitle t) (cleanTitle t) ≤
        simRatio (cs.foldl
          (fun best x => if tupleGtB (simRatio x (cleanTitle t)) x
            (simRatio best (cleanTitle t)) best then x else best) c0) (cleanTitle t) :=
      fold_pick_ratio_le (cleanTitle t) cs c0 (cleanTitle t) hwf
    rw [simRatio_self] at hge
    have h1 : simRatio (cs.foldl
        (fun best x => if tupleGtB (simRatio x (cleanTitle t)) x
          (simRatio best (cleanTitle t)) best then x else best) c0) (cleanTitle t) = 1 :=
      le_antisymm (simRatio_le_one _ _) hge
    have hbw := simRatio_eq_one _ _ h1
    obtain ⟨m0, hm0, hm0t⟩ := List.mem_map.1 h
    have hfind : (pool.find? (fun m => m.title ==
        cs.foldl (fun best x => if tupleGtB (simRatio x (cleanTitle t)) x
          (simRatio best (cleanTitle t)) best then x else best) c0)).isSome := by
      rw [List.find?_isSome]
      exact ⟨m0, hm0, by rw [hbw, hm0t]; exact beq_self_eq_true _⟩
    obtain ⟨m, hm⟩ := Option.isSome_iff_exists.1 hfind
    refine ⟨m, ?_, ?_⟩
    · rw [resolveTitleWith]
      have hgc : getCloseMatch (cleanTitle t) (pool.map Movie.title) c =
          some (cs.foldl (fun best x => if tupleGtB (simRatio x (cleanTitle t)) x
            (simRatio best (cleanTitle t)) best then x else best) c0) := by
        rw [getCloseMatch, hfc]
      rw [hgc]
      exact hm
    · have := List.find?_some hm
      have hmt : m.title = cs.foldl (fun best x => if tupleGtB (simRatio x (cleanTitle t)) x
          (simRatio best (cleanTitle t)) best then x else best) c0 := by
        simpa using this
      rw [hmt, hbw]

/-- Witness for C4 at the cutoff `0.8` and the Inception pool. -/
theorem C4_witness :
    ∃ m, resolveTitleWith cutoff08 incPool (toL "Inception (2010)") = some m ∧
      m.title = cleanTitle (toL "Inception (2010)") :=
  C4_exact_title_resolves cutoff08 (by rw [cutoff08_eq]; norm_num) incPool
    (toL "Inception (2010)") (by decide)

end MovieApp
